import Mathlib

/-!
Verification of the Rcpp gallery examples against their specification.

Shallow embedding conventions used throughout this development:
* C++ `double` values are modelled as exact rationals (`ℚ`); the examples
  perform only field arithmetic and comparisons on them.
* C++ `int` values are modelled as `Int` (or `ℕ` where the source value is
  a container size or a loop counter that is provably nonnegative).
* `Rcpp::NumericVector` / `IntegerVector` are modelled as Lean lists; an
  element access `v[k]` is modelled as `List.getD` (out-of-range accesses
  are undefined behaviour in the source; the separate access-bounds
  predicates account for them).
* The missing-value sentinel `NA_REAL` is modelled by `Option.none`.
* Fallible functions return `Except`.
-/

/-! ### `dgCMatrix` (src/_posts/RcppSparse.h)

The sparse-matrix class extending the Rcpp namespace.  Fields mirror the
public members `i`, `p`, `x`, `Dim`, `Dimnames` of the C++ class.  `Dimnames`
is an R list of dimension-name vectors; its payload is never inspected by
any method, so it is embedded as a list of string lists. -/
structure dgCMatrix where
  i : List Int
  p : List Int
  x : List ℚ
  Dim : List Int
  Dimnames : List (List String)
deriving Repr, DecidableEq

namespace dgCMatrix

/-- Constructor `dgCMatrix(IntegerVector& A_i, IntegerVector& A_p,
NumericVector& A_x, int nrow)`: copies the three arrays and sets
`Dim = IntegerVector::create(nrow, A_p.size() - 1)`. -/
def mk1 (A_i A_p : List Int) (A_x : List ℚ) (nrow : Int) : dgCMatrix :=
  { i := A_i, p := A_p, x := A_x, Dim := [nrow, (A_p.length : Int) - 1],
    Dimnames := [] }

/-- Constructor `dgCMatrix(IntegerVector& A_i, IntegerVector& A_p,
NumericVector& A_x, int nrow, List& A_Dimnames)`: same as `mk1` and also
stores the dimension names. -/
def mk2 (A_i A_p : List Int) (A_x : List ℚ) (nrow : Int)
    (A_Dimnames : List (List String)) : dgCMatrix :=
  { i := A_i, p := A_p, x := A_x, Dim := [nrow, (A_p.length : Int) - 1],
    Dimnames := A_Dimnames }

/-- `int nrow() { return Dim[0]; }` -/
def nrow (m : dgCMatrix) : Int := m.Dim.getD 0 0

/-- `int ncol() { return Dim[1]; }` -/
def ncol (m : dgCMatrix) : Int := m.Dim.getD 1 0

/-- `int rows() { return Dim[0]; }` -/
def rowsDim (m : dgCMatrix) : Int := m.Dim.getD 0 0

/-- `int cols() { return Dim[1]; }` -/
def colsDim (m : dgCMatrix) : Int := m.Dim.getD 1 0

/-- `int n_nonzero() { return x.size(); }` -/
def n_nonzero (m : dgCMatrix) : Int := (m.x.length : Int)

/-- `double sum() { return Rcpp::sum(x); }` -/
def sum (m : dgCMatrix) : ℚ := m.x.sum

/-- The scanning loop of `at`:
`for (int j = p[col]; j < p[col + 1]; ++j) { if (i[j] == row) return x[j];
else if (i[j] > row) break; } return 0.0;`
`j` counts up from `start`; the loop stops at `stop`. -/
def atLoop (m : dgCMatrix) (row : Int) (j stop : ℕ) : ℚ :=
  if _h : j < stop then
    if m.i.getD j 0 = row then m.x.getD j 0
    else if row < m.i.getD j 0 then 0
    else atLoop m row (j + 1) stop
  else 0
termination_by stop - j

/-- `double at(int row, int col) const`: scan the entries of column `col`
(positions `p[col] ≤ j < p[col+1]`), returning `x[j]` on a row match and
`0.0` when passing the row or exhausting the column. -/
def «at» (m : dgCMatrix) (row col : Int) : ℚ :=
  atLoop m row (m.p.getD col.toNat 0).toNat (m.p.getD (col.toNat + 1) 0).toNat

/-- `double operator()(int row, int col) { return at(row, col); }` -/
def parenOne (m : dgCMatrix) (row col : Int) : ℚ := m.at row col

/-- `NumericVector operator()(int row, IntegerVector& col)`:
element-wise `at` along a vector of column indices. -/
def parenRowVec (m : dgCMatrix) (row : Int) (col : List Int) : List ℚ :=
  col.map fun c => m.at row c

/-- `NumericVector operator()(IntegerVector& row, int col)`:
element-wise `at` along a vector of row indices. -/
def parenVecCol (m : dgCMatrix) (row : List Int) (col : Int) : List ℚ :=
  row.map fun r => m.at r col

/-- `NumericMatrix operator()(IntegerVector& row, IntegerVector& col)`:
the submatrix of `at` values, as a list of rows. -/
def parenVecVec (m : dgCMatrix) (row col : List Int) : List (List ℚ) :=
  row.map fun r => col.map fun c => m.at r c

/-- `NumericVector col(int col)`: a dense copy of one column.  Starts from a
zero vector of length `Dim[0]` and writes `c[i[j]] = x[j]` for each stored
entry `j` of the column. -/
def colDense (m : dgCMatrix) (col : Int) : List ℚ :=
  (List.range' (m.p.getD col.toNat 0).toNat
      ((m.p.getD (col.toNat + 1) 0).toNat - (m.p.getD col.toNat 0).toNat)).foldl
    (fun c j => c.set (m.i.getD j 0).toNat (m.x.getD j 0))
    (List.replicate (m.Dim.getD 0 0).toNat 0)

/-- `NumericMatrix cols(IntegerVector& c)`: column copies assembled into a
matrix, here a list of columns. -/
def colsDense (m : dgCMatrix) (c : List Int) : List (List ℚ) :=
  c.map fun j => m.colDense j

/-- The inner scan of `row(int row)` for one column: runs `j` from `start`
to `stop`, replacing the current value `cur` on a row match (`r[col] = x[j]`)
and breaking once `i[j] > row`. -/
def rowScan (m : dgCMatrix) (row : Int) (j stop : ℕ) (cur : ℚ) : ℚ :=
  if _h : j < stop then
    if m.i.getD j 0 = row then rowScan m row (j + 1) stop (m.x.getD j 0)
    else if row < m.i.getD j 0 then cur
    else rowScan m row (j + 1) stop cur
  else cur
termination_by stop - j

/-- `NumericVector row(int row)`: a dense copy of one row, scanning every
column's stored entries. -/
def rowDense (m : dgCMatrix) (row : Int) : List ℚ :=
  (List.range (m.Dim.getD 1 0).toNat).map fun col =>
    rowScan m row (m.p.getD col 0).toNat (m.p.getD (col + 1) 0).toNat 0

/-- `NumericMatrix rows(IntegerVector& r)`: row copies assembled into a
matrix, here a list of rows. -/
def rowsDense (m : dgCMatrix) (r : List Int) : List (List ℚ) :=
  r.map fun j => m.rowDense j

/-- Sum of `f j` over the index range `[a, b)`; the accumulation pattern of
the `colSums` / `rowSums` / `crossprod` loops. -/
def rangeSum (f : ℕ → ℚ) (a b : ℕ) : ℚ :=
  ((List.range' a (b - a)).map f).sum

/-- `NumericVector colSums()`: per column, the sum of stored values. -/
def colSums (m : dgCMatrix) : List ℚ :=
  (List.range (m.Dim.getD 1 0).toNat).map fun col =>
    rangeSum (fun j => m.x.getD j 0) (m.p.getD col 0).toNat
      (m.p.getD (col + 1) 0).toNat

/-- `NumericVector rowSums()`: accumulate `sums(i[j]) += x[j]` over every
stored entry of every column. -/
def rowSums (m : dgCMatrix) : List ℚ :=
  (List.range (m.Dim.getD 1 0).toNat).foldl
    (fun sums col =>
      (List.range' (m.p.getD col 0).toNat
          ((m.p.getD (col + 1) 0).toNat - (m.p.getD col 0).toNat)).foldl
        (fun sums j =>
          sums.set (m.i.getD j 0).toNat
            (sums.getD (m.i.getD j 0).toNat 0 + m.x.getD j 0))
        sums)
    (List.replicate (m.Dim.getD 0 0).toNat 0)

/-- `NumericVector colMeans()`: `colSums` divided entrywise by `Dim[0]`. -/
def colMeans (m : dgCMatrix) : List ℚ :=
  m.colSums.map fun s => s / (m.Dim.getD 0 0 : ℚ)

/-- `NumericVector rowMeans()`: `rowSums` divided entrywise by `Dim[1]`. -/
def rowMeans (m : dgCMatrix) : List ℚ :=
  m.rowSums.map fun s => s / (m.Dim.getD 1 0 : ℚ)

/-- The inner `do { ++col1_ind; } while (i[col1_ind] < row2 && col1_ind <
col1_max);` advance of `crossprod`: increment once, then keep incrementing
while the stored row stays below `target` and the cursor stays below
`bound`. -/
def advanceWhile (iArr : List Int) (target : Int) (bound ind : ℕ) : ℕ :=
  if iArr.getD (ind + 1) 0 < target ∧ ind + 1 < bound then
    advanceWhile iArr target bound (ind + 1)
  else ind + 1
termination_by bound - ind

/-- `advanceWhile` strictly advances its cursor. -/
theorem advanceWhile_lt (iArr : List Int) (target : Int) (bound ind : ℕ) :
    ind < advanceWhile iArr target bound ind := by
  unfold advanceWhile
  split
  · exact Nat.lt_trans (Nat.lt_succ_self ind)
      (advanceWhile_lt iArr target bound (ind + 1))
  · exact Nat.lt_succ_self ind
termination_by bound - ind

/-- The sorted-merge loop of `crossprod` for one off-diagonal pair of
columns: both cursors sweep their column's stored entries, accumulating
`x[col1_ind] * x[col2_ind]` on row matches. -/
def crossLoop (iArr : List Int) (xArr : List ℚ) (c1max c2max i1 i2 : ℕ)
    (acc : ℚ) : ℚ :=
  if _h : i1 < c1max ∧ i2 < c2max then
    let row1 := iArr.getD i1 0
    let row2 := iArr.getD i2 0
    if row1 = row2 then
      crossLoop iArr xArr c1max c2max (i1 + 1) (i2 + 1)
        (acc + xArr.getD i1 0 * xArr.getD i2 0)
    else if row1 < row2 then
      crossLoop iArr xArr c1max c2max (advanceWhile iArr row2 c1max i1) i2 acc
    else
      crossLoop iArr xArr c1max c2max i1 (advanceWhile iArr row1 c2max i2) acc
  else acc
termination_by (c1max - i1) + (c2max - i2)
decreasing_by
  · omega
  · have := advanceWhile_lt iArr (iArr.getD i2 0) c1max i1
    omega
  · have := advanceWhile_lt iArr (iArr.getD i1 0) c2max i2
    omega

/-- One entry of `crossprod()` for columns `c1 ≤ c2`: the diagonal branch
accumulates `x[j] * x[j]` over the column; the off-diagonal branch runs the
sorted-merge loop from `p[c1]`, `p[c2]`. -/
def crossprodEntry (m : dgCMatrix) (c1 c2 : ℕ) : ℚ :=
  if c1 = c2 then
    rangeSum (fun j => m.x.getD j 0 * m.x.getD j 0) (m.p.getD c1 0).toNat
      (m.p.getD (c1 + 1) 0).toNat
  else
    crossLoop m.i m.x (m.p.getD (c1 + 1) 0).toNat (m.p.getD (c2 + 1) 0).toNat
      (m.p.getD c1 0).toNat (m.p.getD c2 0).toNat 0

/-- `NumericMatrix crossprod()`: the `Dim[1] × Dim[1]` matrix whose
`(c1, c2)` entry for `c1 ≤ c2` comes from the merge loop, mirrored onto
`(c2, c1)` by `res(col2, col1) = res(col1, col2)`. -/
def crossprod (m : dgCMatrix) : List (List ℚ) :=
  (List.range (m.Dim.getD 1 0).toNat).map fun c1 =>
    (List.range (m.Dim.getD 1 0).toNat).map fun c2 =>
      if c1 ≤ c2 then m.crossprodEntry c1 c2 else m.crossprodEntry c2 c1

/-- The compressed-sparse-column invariant of a `dgCMatrix`, as documented
for the class: the column-pointer array `p` has `ncol + 1` entries and is
nondecreasing (its entries index into `i` / `x`, so the first is
nonnegative), `i` and `x` have equal length `p[ncol]`, and the row indices
within each column are sorted ascending (strictly: a dgCMatrix stores each
row at most once per column). -/
def CSCInvariant (m : dgCMatrix) : Prop :=
  (m.p.length : Int) = m.ncol + 1 ∧
  0 ≤ m.p.getD 0 0 ∧
  (∀ c : ℕ, c < m.p.length - 1 → m.p.getD c 0 ≤ m.p.getD (c + 1) 0) ∧
  (m.i.length : Int) = m.p.getD (m.p.length - 1) 0 ∧
  m.x.length = m.i.length ∧
  (∀ c : ℕ, c < m.p.length - 1 →
    ∀ k : ℕ, k < (m.p.getD (c + 1) 0).toNat →
      ∀ j : ℕ, j < k → (m.p.getD c 0).toNat ≤ j →
        m.i.getD j 0 < m.i.getD k 0)

instance (m : dgCMatrix) : Decidable (CSCInvariant m) := by
  unfold CSCInvariant
  exact inferInstance

/-- When no position in `[j, stop)` stores row `row`, the scanning loop of
`at` falls through (or breaks) and yields `0.0`. -/
theorem atLoop_eq_zero (m : dgCMatrix) (row : Int) (j stop : ℕ)
    (h : ∀ k : ℕ, j ≤ k → k < stop → m.i.getD k 0 ≠ row) :
    atLoop m row j stop = 0 := by
  unfold atLoop
  split
  · next hjs =>
    rw [if_neg (h j le_rfl hjs)]
    split
    · rfl
    · exact atLoop_eq_zero m row (j + 1) stop fun k hk1 hk2 => h k (by omega) hk2
  · rfl
termination_by stop - j

/-- When position `k` in `[j, stop)` stores row `row` and the rows in
`[j, stop)` are strictly ascending, the scanning loop of `at` returns
`x[k]`. -/
theorem atLoop_match (m : dgCMatrix) (row : Int) (j stop k : ℕ)
    (hjk : j ≤ k) (hks : k < stop) (hk : m.i.getD k 0 = row)
    (hsorted : ∀ a b : ℕ, j ≤ a → a < b → b < stop →
      m.i.getD a 0 < m.i.getD b 0) :
    atLoop m row j stop = m.x.getD k 0 := by
  unfold atLoop
  rw [dif_pos (lt_of_le_of_lt hjk hks)]
  rcases Nat.eq_or_lt_of_le hjk with heq | hlt
  · subst heq; rw [if_pos hk]
  · have hij : m.i.getD j 0 < row := hk ▸ hsorted j k le_rfl hlt hks
    rw [if_neg (ne_of_lt hij), if_neg (not_lt.mpr (le_of_lt hij))]
    exact atLoop_match m row (j + 1) stop k hlt hks hk
      fun a b ha => hsorted a b (by omega)
termination_by k - j

/-! State-threaded forms of the read accessors.  Each one pairs the
method's return value with the object state after the call; the C++ bodies
read the members `i`, `p`, `x`, `Dim`, `Dimnames` and contain no assignment
to any member, so the state each call leaves behind is the receiver
itself. -/

/-- `nrow()` with its post-call state. -/
def nrowS (m : dgCMatrix) : Int × dgCMatrix := (m.nrow, m)

/-- `ncol()` with its post-call state. -/
def ncolS (m : dgCMatrix) : Int × dgCMatrix := (m.ncol, m)

/-- `rows()` with its post-call state. -/
def rowsDimS (m : dgCMatrix) : Int × dgCMatrix := (m.rowsDim, m)

/-- `cols()` with its post-call state. -/
def colsDimS (m : dgCMatrix) : Int × dgCMatrix := (m.colsDim, m)

/-- `n_nonzero()` with its post-call state. -/
def n_nonzeroS (m : dgCMatrix) : Int × dgCMatrix := (m.n_nonzero, m)

/-- `sum()` with its post-call state. -/
def sumS (m : dgCMatrix) : ℚ × dgCMatrix := (m.sum, m)

/-- `at(row, col)` with its post-call state. -/
def atS (m : dgCMatrix) (row col : Int) : ℚ × dgCMatrix := (m.at row col, m)

/-- `operator()(int, int)` with its post-call state. -/
def parenOneS (m : dgCMatrix) (row col : Int) : ℚ × dgCMatrix :=
  (m.parenOne row col, m)

/-- `operator()(int, IntegerVector&)` with its post-call state. -/
def parenRowVecS (m : dgCMatrix) (row : Int) (col : List Int) :
    List ℚ × dgCMatrix := (m.parenRowVec row col, m)

/-- `operator()(IntegerVector&, int)` with its post-call state. -/
def parenVecColS (m : dgCMatrix) (row : List Int) (col : Int) :
    List ℚ × dgCMatrix := (m.parenVecCol row col, m)

/-- `operator()(IntegerVector&, IntegerVector&)` with its post-call state. -/
def parenVecVecS (m : dgCMatrix) (row col : List Int) :
    List (List ℚ) × dgCMatrix := (m.parenVecVec row col, m)

/-- `col(int)` with its post-call state. -/
def colDenseS (m : dgCMatrix) (c : Int) : List ℚ × dgCMatrix :=
  (m.colDense c, m)

/-- `cols(IntegerVector&)` with its post-call state. -/
def colsDenseS (m : dgCMatrix) (c : List Int) : List (List ℚ) × dgCMatrix :=
  (m.colsDense c, m)

/-- `row(int)` with its post-call state. -/
def rowDenseS (m : dgCMatrix) (r : Int) : List ℚ × dgCMatrix :=
  (m.rowDense r, m)

/-- `rows(IntegerVector&)` with its post-call state. -/
def rowsDenseS (m : dgCMatrix) (r : List Int) : List (List ℚ) × dgCMatrix :=
  (m.rowsDense r, m)

/-- `colSums()` with its post-call state. -/
def colSumsS (m : dgCMatrix) : List ℚ × dgCMatrix := (m.colSums, m)

/-- `rowSums()` with its post-call state. -/
def rowSumsS (m : dgCMatrix) : List ℚ × dgCMatrix := (m.rowSums, m)

/-- `colMeans()` with its post-call state. -/
def colMeansS (m : dgCMatrix) : List ℚ × dgCMatrix := (m.colMeans, m)

/-- `rowMeans()` with its post-call state. -/
def rowMeansS (m : dgCMatrix) : List ℚ × dgCMatrix := (m.rowMeans, m)

/-- `crossprod()` with its post-call state. -/
def crossprodS (m : dgCMatrix) : List (List ℚ) × dgCMatrix :=
  (m.crossprod, m)

end dgCMatrix

/-! ### Exception examples (src/src/2013-01-13-intro-to-exceptions.cpp)

`takeLog2` throws `std::range_error("Inadmissible value")` for a
nonpositive argument and otherwise returns `log(val)`; `takeLog3` is the
same with `Rcpp::stop`.  The external `std::log` routine is a parameter of
the embedding, and a thrown error surfaces as `Except.error` with the
message text. -/

/-- `double takeLog2(double val)`. -/
def takeLog2 (log : ℚ → ℚ) (val : ℚ) : Except String ℚ :=
  if val ≤ 0 then Except.error "Inadmissible value"
  else Except.ok (log val)

/-- `double takeLog3(double val)`. -/
def takeLog3 (log : ℚ → ℚ) (val : ℚ) : Except String ℚ :=
  if val ≤ 0 then Except.error "Inadmissible value"
  else Except.ok (log val)

/-! ### Run functions (src/src/2012-12-28-run-functions.cpp) -/

/-- The update loop of `run_sum`:
`for (int i = n; i < sz; i++) { res[i] = res[i-1] + x[i] - x[i-n]; }`. -/
def runSumLoop (x : List ℚ) (n : ℕ) (i : ℕ) (res : List ℚ) : List ℚ :=
  if _h : i < x.length then
    runSumLoop x n (i + 1)
      (res.set i (res.getD (i - 1) 0 + x.getD i 0 - x.getD (i - n) 0))
  else res
termination_by x.length - i

/-- `NumericVector run_sum(NumericVector x, int n)`: seed `res[n-1]` with
`std::accumulate(x.begin(), x.end()-sz+n, 0.0)` (the sum of the first `n`
elements), slide the window with the update loop, then overwrite the first
`n-1` entries with `NA_REAL` (modelled as `none`). -/
def run_sum (x : List ℚ) (n : ℕ) : List (Option ℚ) :=
  let sz := x.length
  let res0 : List ℚ := List.replicate sz 0
  let res1 := res0.set (n - 1) ((x.take n).foldl (· + ·) 0)
  let res2 := runSumLoop x n n res1
  res2.enum.map fun iv => if iv.1 < n - 1 then none else some iv.2

/-! Access-bounds predicates for the run functions.  Each predicate records,
for a vector of size `sz` and window width `n` (a C++ `int`, so modelled as
`Int`), that every element access and iterator the function forms lies
within bounds: an index access `v[k]` on a vector of size `sz` requires
`0 ≤ k < sz`, and an iterator offset `v.begin() + k` requires
`0 ≤ k ≤ sz`. -/

/-- Accesses of `run_sum`:
* `std::accumulate(x.begin(), x.end()-sz+n, 0.0)` — iterator `x.begin()+n`;
* `res[n-1]`;
* loop `i = n .. sz-1`: `res[i]`, `res[i-1]`, `x[i]`, `x[i-n]`;
* `std::fill(res.begin(), res.end()-sz+n-1, NA_REAL)` — iterator
  `res.begin()+(n-1)`. -/
def runSumInBounds (sz : ℕ) (n : Int) : Prop :=
  (0 ≤ n ∧ n ≤ (sz : Int)) ∧
  (0 ≤ n - 1 ∧ n - 1 < (sz : Int)) ∧
  (∀ k : ℕ, (k : Int) < (sz : Int) - n →
    (0 ≤ n + k ∧ n + k < (sz : Int)) ∧
    (0 ≤ n + k - 1 ∧ n + k - 1 < (sz : Int)) ∧
    (0 ≤ (k : Int) ∧ (k : Int) < (sz : Int))) ∧
  (0 ≤ n - 1 ∧ n - 1 ≤ (sz : Int))

/-- Accesses of `run_min`:
* loop `i = 0 .. sz-n`: the iterator range
  `[x.begin()+i, x.end()-sz+n+i)` handed to `std::min_element`, whose
  result is dereferenced (so the range must be nonempty and its
  dereferenced position `≥ i` must lie within `x`), and `res[i+n-1]`;
* `std::fill(res.begin(), res.end()-sz+n-1, NA_REAL)` — iterator
  `res.begin()+(n-1)`. -/
def runMinInBounds (sz : ℕ) (n : Int) : Prop :=
  (∀ k : ℕ, (k : Int) < (sz : Int) - n + 1 →
    (0 ≤ (k : Int) ∧ (k : Int) ≤ (sz : Int)) ∧
    (0 ≤ n + k ∧ n + k ≤ (sz : Int)) ∧
    ((k : Int) < n + k ∧ (k : Int) < (sz : Int)) ∧
    (0 ≤ (k : Int) + n - 1 ∧ (k : Int) + n - 1 < (sz : Int))) ∧
  (0 ≤ n - 1 ∧ n - 1 ≤ (sz : Int))

/-- Accesses of `run_max`: identical index ranges to `run_min`, with
`std::max_element` in place of `std::min_element`. -/
def runMaxInBounds (sz : ℕ) (n : Int) : Prop :=
  (∀ k : ℕ, (k : Int) < (sz : Int) - n + 1 →
    (0 ≤ (k : Int) ∧ (k : Int) ≤ (sz : Int)) ∧
    (0 ≤ n + k ∧ n + k ≤ (sz : Int)) ∧
    ((k : Int) < n + k ∧ (k : Int) < (sz : Int)) ∧
    (0 ≤ (k : Int) + n - 1 ∧ (k : Int) + n - 1 < (sz : Int))) ∧
  (0 ≤ n - 1 ∧ n - 1 ≤ (sz : Int))

/-! ### Robust estimators (src/src/2013-01-20-robust-estimators.cpp) -/

/-- Model of `std::nth_element(first, nth, last)` on the vector `y`: the
subrange `[first, last)` is rearranged so that the element at `nth` is the
one that would be there after a full sort and the subrange is partitioned
around it.  A conforming implementation that realises this postcondition is
one that sorts the subrange, which is the model used here (as a stable
insertion sort); everything outside `[first, last)` is untouched. -/
def nth_element (y : List ℚ) (first _nth last : ℕ) : List ℚ :=
  y.take first ++
    ((y.drop first).take (last - first)).insertionSort (· ≤ ·) ++
    y.drop last

/-- `double median_rcpp(NumericVector x)`: clone the input, select the
middle element(s) with `std::nth_element`, and average the two middle
elements for an even length.  The second component is the argument vector
after the call: all rearrangement happens on the clone `y`, so the
argument is returned unchanged. -/
def median_rcpp (x : List ℚ) : ℚ × List ℚ :=
  let y := x
  let n := y.length
  let half := n / 2
  if n % 2 = 1 then
    let y1 := (nth_element y 0 half n).getD half 0
    (y1, x)
  else
    let y' := nth_element y 0 half n
    let y1 := y'.getD half 0
    let y'' := nth_element y' 0 (half - 1) half
    let y2 := y''.getD (half - 1) 0
    ((y1 + y2) / 2, x)

/-- The middle order statistic in the spec's sense: entry `n / 2` of the
sorted copy for odd `n`, and the average of entries `n / 2 - 1` and `n / 2`
for even `n`. -/
def medianRef (x : List ℚ) : ℚ :=
  let s := x.insertionSort (· ≤ ·)
  let n := x.length
  if n % 2 = 1 then s.getD (n / 2) 0
  else (s.getD (n / 2 - 1) 0 + s.getD (n / 2) 0) / 2

/-! ### Cumulative sums (src/src/2012-12-22-vector-cumulative-sum.cpp) -/

/-- The loop of `cumsum1`, one iteration per remaining element, carrying
the accumulator: `acc += x[i]; res[i] = acc`. -/
def cumsum1Loop (acc : ℚ) : List ℚ → List ℚ
  | [] => []
  | v :: rest => (acc + v) :: cumsum1Loop (acc + v) rest

/-- `NumericVector cumsum1(NumericVector x)`: the for-loop with an
accumulator, starting from `acc = 0`. -/
def cumsum1 (x : List ℚ) : List ℚ := cumsum1Loop 0 x

/-- The accumulation loop of `std::partial_sum` after the first element:
write the running sum, then add the next element. -/
def cumsum2Loop (s : ℚ) : List ℚ → List ℚ
  | [] => [s]
  | v :: rest => s :: cumsum2Loop (s + v) rest

/-- `NumericVector cumsum2(NumericVector x)`: `std::partial_sum` of `x`
into the output vector. -/
def cumsum2 (x : List ℚ) : List ℚ :=
  match x with
  | [] => []
  | v :: rest => cumsum2Loop v rest

/-- `NumericVector cumsum_sug(NumericVector x)`: the Rcpp sugar `cumsum`,
whose documented value is the vector of prefix sums
`res[i] = x[0] + ... + x[i]`. -/
def cumsum_sug (x : List ℚ) : List ℚ :=
  (List.range x.length).map fun i => (x.take (i + 1)).sum

/-! ### Parallel vector sum (src/src/2014-06-29-parallel-vector-sum.cpp) -/

/-- `double vectorSum(NumericVector x)`:
`std::accumulate(x.begin(), x.end(), 0.0)`. -/
def vectorSum (x : List ℚ) : ℚ := x.foldl (· + ·) 0

/-- The `Sum` worker state: the accumulated `value` member (the `input`
member always views the same source vector, passed separately). -/
structure SumWorker where
  value : ℚ

/-- The worker's `operator()(std::size_t begin, std::size_t end)`:
`value += std::accumulate(input.begin() + begin, input.begin() + end,
0.0)`. -/
def sumOperator (input : List ℚ) (w : SumWorker) (b e : ℕ) : SumWorker :=
  ⟨w.value + ((input.drop b).take (e - b)).foldl (· + ·) 0⟩

/-- The worker's `join(const Sum& rhs)`: `value += rhs.value`. -/
def sumJoin (w rhs : SumWorker) : SumWorker := ⟨w.value + rhs.value⟩

/-- A way `parallelReduce` can split the index range: a list of
consecutive segments.  `coversFrom start segs stop` holds when the
segments begin at `start`, are contiguous and nondecreasing, and end at
`stop`. -/
def coversFrom (start : ℕ) : List (ℕ × ℕ) → ℕ → Bool
  | [], stop => start = stop
  | (b, e) :: rest, stop => b = start && b ≤ e && coversFrom e rest stop

/-- The value `parallelReduce(0, x.length(), sum)` produces for a given
split: each segment is accumulated by a fresh `Sum` worker (splitting
constructor: `value = 0`) via `operator()`, and the per-segment values are
combined with `join` (a freshly split worker holds `value = 0`, so the
empty split contributes `0`). -/
def parallelVectorSum (x : List ℚ) : List (ℕ × ℕ) → ℚ
  | [] => 0
  | (b, e) :: rest =>
    (sumJoin (sumOperator x ⟨0⟩ b e) ⟨parallelVectorSum x rest⟩).value

/-! ### Tau-leap compartment model
(src/src/2015-04-25-epidemiological-compartment-model.cpp) -/

/-- The rate parameters of `tauleapCpp` (`params["nu"]`, `params["mu"]`,
`params["beta"]`, `params["gamma"]`, `params["tau"]`). -/
structure SIRParams where
  nu : ℚ
  mu : ℚ
  beta : ℚ
  gamma : ℚ
  tau : ℚ

/-- One simulation state: the scalars `(iS, iI, iR, iN)` read from the
state vectors at one time step. -/
structure SIRState where
  S : ℚ
  I : ℚ
  R : ℚ
  N : ℚ

/-- One iteration of the `tauleapCpp` update loop at step `istep`.  The
Poisson sampler `R::rpois` is an external routine, modelled by the oracle
`rpois` indexed by draw number (six draws per step, in program order).
Every outflow is clamped with `std::min` to the quantity remaining in its
source compartment, exactly as in the source. -/
def tauleapStep (pr : SIRParams) (rpois : ℕ → ℚ → ℚ) (istep : ℕ)
    (st : SIRState) : SIRState :=
  let births := rpois (6 * istep) (pr.nu * st.N * pr.tau)
  let Sdeaths := min st.S (rpois (6 * istep + 1) (pr.mu * st.S * pr.tau))
  let maxtrans := rpois (6 * istep + 2)
    (pr.beta * (st.I / st.N) * st.S * pr.tau)
  let transmission := min (st.S - Sdeaths) maxtrans
  let Ideaths := min st.I (rpois (6 * istep + 3) (pr.mu * st.I * pr.tau))
  let recovery := min (st.I - Ideaths)
    (rpois (6 * istep + 4) (pr.gamma * st.I * pr.tau))
  let Rdeaths := min st.R (rpois (6 * istep + 5) (pr.mu * st.R * pr.tau))
  let dS := births - Sdeaths - transmission
  let dI := transmission - Ideaths - recovery
  let dR := recovery - Rdeaths
  { S := st.S + dS, I := st.I + dI, R := st.R + dR,
    N := st.S + st.I + st.R + dS + dI + dR }

/-- The state of `tauleapCpp` after `k` loop iterations: entry `k` of the
result vectors `SS`, `II`, `RR`, `NN` (entry `0` is the initial state from
`params["init"]`; the loop writes entry `istep + 1` from entry `istep`). -/
def tauleapCpp (pr : SIRParams) (rpois : ℕ → ℚ → ℚ) (init : SIRState) :
    ℕ → SIRState
  | 0 => init
  | k + 1 => tauleapStep pr rpois k (tauleapCpp pr rpois init k)

/-! ## Claim theorems -/

/-- C1: for every `dgCMatrix` satisfying the CSC invariant and every
in-range `row` and `col`, `at(row, col)` returns `x[j]` when some `j` in
`[p[col], p[col+1])` has `i[j] == row`, and returns `0.0` otherwise. -/
theorem dgCMatrix_at_spec (m : dgCMatrix) (hinv : dgCMatrix.CSCInvariant m)
    (row col : Int) (_hrow : 0 ≤ row ∧ row < m.nrow)
    (hcol : 0 ≤ col ∧ col < m.ncol) :
    (∀ j : ℕ, (m.p.getD col.toNat 0).toNat ≤ j →
        j < (m.p.getD (col.toNat + 1) 0).toNat → m.i.getD j 0 = row →
        m.at row col = m.x.getD j 0) ∧
    ((∀ j : ℕ, (m.p.getD col.toNat 0).toNat ≤ j →
        j < (m.p.getD (col.toNat + 1) 0).toNat → m.i.getD j 0 ≠ row) →
      m.at row col = 0) := by
  obtain ⟨hp, _h0, _hmono, _hlen, _hxlen, hsorted⟩ := hinv
  have hc : col.toNat < m.p.length - 1 := by omega
  constructor
  · intro j hj1 hj2 hij
    exact dgCMatrix.atLoop_match m row _ _ j hj1 hj2 hij
      fun a b ha hab hb => hsorted col.toNat hc b hb a hab ha
  · intro h
    exact dgCMatrix.atLoop_eq_zero m row _ _ h

/-- Witness for C1: a concrete 3×2 CSC matrix with entries `(0,0) = 5` and
`(2,1) = 7`; `at` finds the stored entry and returns `0` at a hole. -/
theorem dgCMatrix_at_spec_witness :
    dgCMatrix.CSCInvariant ⟨[0, 2], [0, 1, 2], [5, 7], [3, 2], []⟩ ∧
    (⟨[0, 2], [0, 1, 2], [5, 7], [3, 2], []⟩ : dgCMatrix).at 2 1 = 7 ∧
    (⟨[0, 2], [0, 1, 2], [5, 7], [3, 2], []⟩ : dgCMatrix).at 1 1 = 0 := by
  have h := dgCMatrix_at_spec ⟨[0, 2], [0, 1, 2], [5, 7], [3, 2], []⟩
    (by decide) 2 1 (by decide) (by decide)
  have h' := dgCMatrix_at_spec ⟨[0, 2], [0, 1, 2], [5, 7], [3, 2], []⟩
    (by decide) 1 1 (by decide) (by decide)
  exact ⟨by decide, h.1 1 (by decide) (by decide) (by decide),
    h'.2 (by decide)⟩

/-- C2 counterexample: the claim fails as stated.  The constructor stores
the arrays it is given without checking them, so a `dgCMatrix` constructed
from a row-index array of length 0 and a value array of length 1 has
`i.length ≠ n_nonzero()`. -/
theorem dgCMatrix_mk_length_cex :
    ¬ (((dgCMatrix.mk1 [] [0, 1] [5] 1).i.length : Int) =
        (dgCMatrix.mk1 [] [0, 1] [5] 1).n_nonzero) := by decide

/-- C2 (amended): for every `dgCMatrix` constructed from row-index,
column-pointer and value arrays where the supplied row-index and value
arrays have equal length, the column-pointer array length equals
`ncol() + 1` and the arrays `i` and `x` both have length `n_nonzero()`
(for both array constructors). -/
theorem dgCMatrix_mk_invariant (A_i A_p : List Int) (A_x : List ℚ)
    (nr : Int) (A_Dimnames : List (List String))
    (hlen : A_i.length = A_x.length) :
    ((dgCMatrix.mk1 A_i A_p A_x nr).p.length : Int) =
      (dgCMatrix.mk1 A_i A_p A_x nr).ncol + 1 ∧
    ((dgCMatrix.mk1 A_i A_p A_x nr).i.length : Int) =
      (dgCMatrix.mk1 A_i A_p A_x nr).n_nonzero ∧
    ((dgCMatrix.mk1 A_i A_p A_x nr).x.length : Int) =
      (dgCMatrix.mk1 A_i A_p A_x nr).n_nonzero ∧
    ((dgCMatrix.mk2 A_i A_p A_x nr A_Dimnames).p.length : Int) =
      (dgCMatrix.mk2 A_i A_p A_x nr A_Dimnames).ncol + 1 ∧
    ((dgCMatrix.mk2 A_i A_p A_x nr A_Dimnames).i.length : Int) =
      (dgCMatrix.mk2 A_i A_p A_x nr A_Dimnames).n_nonzero ∧
    ((dgCMatrix.mk2 A_i A_p A_x nr A_Dimnames).x.length : Int) =
      (dgCMatrix.mk2 A_i A_p A_x nr A_Dimnames).n_nonzero := by
  refine ⟨?_, ?_, ?_, ?_, ?_, ?_⟩ <;>
    simp [dgCMatrix.mk1, dgCMatrix.mk2, dgCMatrix.ncol,
      dgCMatrix.n_nonzero, hlen]

/-- Witness for C2's amended theorem at concrete arrays of equal length. -/
theorem dgCMatrix_mk_invariant_witness :
    ((dgCMatrix.mk1 [0] [0, 1] [2] 1).p.length : Int) =
      (dgCMatrix.mk1 [0] [0, 1] [2] 1).ncol + 1 ∧
    ((dgCMatrix.mk1 [0] [0, 1] [2] 1).i.length : Int) =
      (dgCMatrix.mk1 [0] [0, 1] [2] 1).n_nonzero := by
  have h := dgCMatrix_mk_invariant [0] [0, 1] [2] 1 [] (by decide)
  exact ⟨h.1, h.2.1⟩

/-- C3: no read accessor of `dgCMatrix` mutates the matrix: the post-call
state of `nrow`, `ncol`, `rows`, `cols`, `n_nonzero`, `sum`, `at`, every
`operator()` overload, `col`, `cols`, `row`, `rows`, `colSums`, `rowSums`,
`colMeans`, `rowMeans` and `crossprod` equals the receiver — the stored
`i`, `p`, `x`, `Dim`, `Dimnames` are unchanged. -/
theorem dgCMatrix_accessors_no_mutation (m : dgCMatrix) (r c : Int)
    (rs cs : List Int) :
    (dgCMatrix.nrowS m).2 = m ∧ (dgCMatrix.ncolS m).2 = m ∧
    (dgCMatrix.rowsDimS m).2 = m ∧ (dgCMatrix.colsDimS m).2 = m ∧
    (dgCMatrix.n_nonzeroS m).2 = m ∧ (dgCMatrix.sumS m).2 = m ∧
    (dgCMatrix.atS m r c).2 = m ∧ (dgCMatrix.parenOneS m r c).2 = m ∧
    (dgCMatrix.parenRowVecS m r cs).2 = m ∧
    (dgCMatrix.parenVecColS m rs c).2 = m ∧
    (dgCMatrix.parenVecVecS m rs cs).2 = m ∧
    (dgCMatrix.colDenseS m c).2 = m ∧
    (dgCMatrix.colsDenseS m cs).2 = m ∧
    (dgCMatrix.rowDenseS m r).2 = m ∧
    (dgCMatrix.rowsDenseS m rs).2 = m ∧
    (dgCMatrix.colSumsS m).2 = m ∧ (dgCMatrix.rowSumsS m).2 = m ∧
    (dgCMatrix.colMeansS m).2 = m ∧ (dgCMatrix.rowMeansS m).2 = m ∧
    (dgCMatrix.crossprodS m).2 = m :=
  ⟨rfl, rfl, rfl, rfl, rfl, rfl, rfl, rfl, rfl, rfl, rfl, rfl, rfl, rfl,
    rfl, rfl, rfl, rfl, rfl, rfl⟩

/-- C4: `takeLog2` (and equivalently `takeLog3`) raises a host-visible
error if and only if its argument is `≤ 0.0`, and for every positive
argument returns `log(val)` without error. -/
theorem takeLog_error_iff (log : ℚ → ℚ) (val : ℚ) :
    ((∃ msg, takeLog2 log val = Except.error msg) ↔ val ≤ 0) ∧
    ((∃ msg, takeLog3 log val = Except.error msg) ↔ val ≤ 0) ∧
    (0 < val → takeLog2 log val = Except.ok (log val)) ∧
    (0 < val → takeLog3 log val = Except.ok (log val)) := by
  unfold takeLog2 takeLog3
  by_cases h : val ≤ 0 <;> simp [h]

/-- Witness for C4 at `val = 1` (no error, value `log 1`) and the error
case is exercised through the iff at `val = -1`. -/
theorem takeLog_error_iff_witness :
    takeLog2 id 1 = Except.ok 1 ∧ takeLog3 id 1 = Except.ok 1 ∧
    (∃ msg, takeLog2 id (-1) = Except.error msg) := by
  have h := takeLog_error_iff id 1
  have h' := takeLog_error_iff id (-1)
  exact ⟨h.2.2.1 (by norm_num), h.2.2.2 (by norm_num),
    h'.1.mpr (by norm_num)⟩

/-- C10: the run functions do not check their window width.  For a vector
of size `sz`, every element access and iterator that `run_sum`, `run_min`
and `run_max` form lies within bounds exactly when `1 ≤ n ≤ sz`; outside
that range some access of these functions falls outside the vectors (for
every `n < 1` and every `n > sz`, `run_sum`'s seed accesses already do). -/
theorem run_bounds_iff (sz : ℕ) (n : Int) :
    (1 ≤ n ∧ n ≤ (sz : Int)) ↔
      (runSumInBounds sz n ∧ runMinInBounds sz n ∧ runMaxInBounds sz n) := by
  constructor
  · rintro ⟨h1, h2⟩
    refine ⟨⟨by omega, by omega, ?_, by omega⟩,
      ⟨?_, by omega⟩, ⟨?_, by omega⟩⟩ <;> intro k hk <;> omega
  · rintro ⟨⟨ha, hb, _, _⟩, _, _⟩
    omega

/-- The accumulator loop of `cumsum1` computes prefix sums offset by the
incoming accumulator. -/
theorem cumsum1Loop_eq (l : List ℚ) : ∀ acc : ℚ,
    cumsum1Loop acc l =
      (List.range l.length).map fun i => acc + (l.take (i + 1)).sum := by
  induction l with
  | nil => intro acc; rfl
  | cons v rest ih =>
    intro acc
    simp only [cumsum1Loop, List.length_cons, List.range_succ_eq_map,
      List.map_cons, List.map_map, ih (acc + v)]
    congr 1
    · simp
    · refine List.map_congr_left fun i _ => ?_
      simp [Function.comp, add_assoc]

/-- The `std::partial_sum` loop agrees with the accumulator loop once the
running value is seeded. -/
theorem cumsum2Loop_eq (l : List ℚ) : ∀ s : ℚ,
    cumsum2Loop s l = s :: cumsum1Loop s l := by
  induction l with
  | nil => intro s; rfl
  | cons v rest ih => intro s; simp [cumsum2Loop, cumsum1Loop, ih (s + v)]

/-- C7: the three cumulative-sum implementations agree, and each entry `i`
of the result is the prefix sum `x[0] + ... + x[i]`. -/
theorem cumsum_agree (x : List ℚ) :
    cumsum1 x = cumsum2 x ∧ cumsum1 x = cumsum_sug x ∧
    (∀ i : ℕ, i < x.length →
      (cumsum1 x).getD i 0 = (x.take (i + 1)).sum) := by
  have hsug : cumsum1 x = cumsum_sug x := by
    unfold cumsum1 cumsum_sug
    rw [cumsum1Loop_eq]
    exact List.map_congr_left fun i _ => by rw [zero_add]
  refine ⟨?_, hsug, ?_⟩
  · cases x with
    | nil => rfl
    | cons v rest =>
      show cumsum1Loop 0 (v :: rest) = cumsum2Loop v rest
      rw [cumsum2Loop_eq]
      simp [cumsum1Loop]
  · intro i hi
    rw [hsug]
    unfold cumsum_sug
    rw [List.getD_eq_getElem?_getD, List.getElem?_map,
      List.getElem?_range hi]
    rfl

/-- Witness for C7 on a concrete vector. -/
theorem cumsum_agree_witness :
    cumsum1 [1, 2, 3] = cumsum2 [1, 2, 3] ∧
    cumsum1 [1, 2, 3] = cumsum_sug [1, 2, 3] ∧
    (cumsum1 [(1 : ℚ), 2, 3]).getD 2 0 = 6 := by
  have h := cumsum_agree [1, 2, 3]
  refine ⟨h.1, h.2.1, ?_⟩
  rw [h.2.2 2 (by decide)]
  norm_num

/-- `std::accumulate` with `+` starting from `a` adds the list sum. -/
theorem foldl_add_eq (l : List ℚ) : ∀ a : ℚ,
    l.foldl (· + ·) a = a + l.sum := by
  induction l with
  | nil => intro a; simp
  | cons v rest ih => intro a; simp [ih, add_assoc]

/-- Any contiguous covering of `[s, stop)` satisfies `s ≤ stop`. -/
theorem coversFrom_le (segs : List (ℕ × ℕ)) : ∀ s stop : ℕ,
    coversFrom s segs stop = true → s ≤ stop := by
  induction segs with
  | nil =>
    intro s stop h
    simp only [coversFrom, decide_eq_true_eq] at h
    omega
  | cons seg rest ih =>
    intro s stop h
    obtain ⟨b, e⟩ := seg
    simp only [coversFrom, Bool.and_eq_true, decide_eq_true_eq] at h
    have := ih e stop h.2
    omega

/-- Joining the per-segment accumulations over any contiguous covering of
`[s, x.length)` yields the sum of the dropped-by-`s` suffix. -/
theorem runSchedule_eq (x : List ℚ) (segs : List (ℕ × ℕ)) : ∀ s : ℕ,
    coversFrom s segs x.length = true →
    parallelVectorSum x segs = (x.drop s).sum := by
  induction segs with
  | nil =>
    intro s h
    simp only [coversFrom, decide_eq_true_eq] at h
    simp [parallelVectorSum, List.drop_eq_nil_of_le (le_of_eq h.symm)]
  | cons seg rest ih =>
    intro s h
    obtain ⟨b, e⟩ := seg
    simp only [coversFrom, Bool.and_eq_true, decide_eq_true_eq] at h
    obtain ⟨⟨hb, hbe⟩, hrest⟩ := h
    subst hb
    simp only [parallelVectorSum, sumJoin, sumOperator, ih e hrest,
      foldl_add_eq]
    have hsplit : x.drop b =
        (x.drop b).take (e - b) ++ (x.drop b).drop (e - b) :=
      (List.take_append_drop _ _).symm
    have hdd : (x.drop b).drop (e - b) = x.drop e := by
      rw [List.drop_drop]
      congr 1
      omega
    calc 0 + (0 + ((x.drop b).take (e - b)).sum) + (x.drop e).sum
        = ((x.drop b).take (e - b)).sum + ((x.drop b).drop (e - b)).sum := by
          rw [hdd]; ring
      _ = (x.drop b).sum := by rw [← List.sum_append, ← hsplit]

/-- C8: for every way the index range `[0, length(x))` is split into
contiguous segments, accumulating each segment with the `Sum` worker's
`operator()` (from a freshly split worker with `value = 0`) and combining
the per-segment values with `join` yields exactly `vectorSum(x)`, the
serial `std::accumulate` over the whole vector. -/
theorem parallelVectorSum_eq_vectorSum (x : List ℚ) (segs : List (ℕ × ℕ))
    (h : coversFrom 0 segs x.length = true) :
    parallelVectorSum x segs = vectorSum x := by
  rw [runSchedule_eq x segs 0 h]
  unfold vectorSum
  rw [foldl_add_eq, List.drop_zero, zero_add]

/-- Witness for C8: a concrete split of `[0, 3)` into two segments. -/
theorem parallelVectorSum_eq_vectorSum_witness :
    parallelVectorSum [1, 2, 3] [(0, 2), (2, 3)] = vectorSum [1, 2, 3] :=
  parallelVectorSum_eq_vectorSum [1, 2, 3] [(0, 2), (2, 3)] (by decide)

/-- One tau-leap step preserves nonnegativity of `S`, `I` and `R`: every
outflow is clamped with `std::min` to the quantity remaining in its source
compartment, and the inflows are Poisson draws (nonnegative). -/
theorem tauleapStep_nonneg (pr : SIRParams) (rpois : ℕ → ℚ → ℚ)
    (istep : ℕ) (st : SIRState) (hdraw : ∀ k lam, 0 ≤ rpois k lam)
    (_hS : 0 ≤ st.S) (_hI : 0 ≤ st.I) (_hR : 0 ≤ st.R) :
    0 ≤ (tauleapStep pr rpois istep st).S ∧
    0 ≤ (tauleapStep pr rpois istep st).I ∧
    0 ≤ (tauleapStep pr rpois istep st).R := by
  have hb := hdraw (6 * istep) (pr.nu * st.N * pr.tau)
  have hd2 := hdraw (6 * istep + 2) (pr.beta * (st.I / st.N) * st.S * pr.tau)
  have hd4 := hdraw (6 * istep + 4) (pr.gamma * st.I * pr.tau)
  simp only [tauleapStep]
  refine ⟨?_, ?_, ?_⟩
  · have h1 := min_le_left st.S (rpois (6 * istep + 1) (pr.mu * st.S * pr.tau))
    have h2 := min_le_left
      (st.S - min st.S (rpois (6 * istep + 1) (pr.mu * st.S * pr.tau)))
      (rpois (6 * istep + 2) (pr.beta * (st.I / st.N) * st.S * pr.tau))
    linarith
  · have h1 := min_le_left st.S (rpois (6 * istep + 1) (pr.mu * st.S * pr.tau))
    have h2 : 0 ≤ min
        (st.S - min st.S (rpois (6 * istep + 1) (pr.mu * st.S * pr.tau)))
        (rpois (6 * istep + 2) (pr.beta * (st.I / st.N) * st.S * pr.tau)) :=
      le_min (by linarith) hd2
    have h3 := min_le_left st.I (rpois (6 * istep + 3) (pr.mu * st.I * pr.tau))
    have h4 := min_le_left
      (st.I - min st.I (rpois (6 * istep + 3) (pr.mu * st.I * pr.tau)))
      (rpois (6 * istep + 4) (pr.gamma * st.I * pr.tau))
    linarith
  · have h3 := min_le_left st.I (rpois (6 * istep + 3) (pr.mu * st.I * pr.tau))
    have h4 : 0 ≤ min
        (st.I - min st.I (rpois (6 * istep + 3) (pr.mu * st.I * pr.tau)))
        (rpois (6 * istep + 4) (pr.gamma * st.I * pr.tau)) :=
      le_min (by linarith) hd4
    have h5 := min_le_left st.R (rpois (6 * istep + 5) (pr.mu * st.R * pr.tau))
    linarith

/-- C9: in `tauleapCpp`, if the initial `S`, `I`, `R` are nonnegative and
all rate parameters are nonnegative, the compartments stay nonnegative at
every time step: each outflow (susceptible deaths, transmission, infected
deaths, recovery, recovered deaths) is clamped with `std::min` to what
remains in its source compartment, and the Poisson draws feeding the
inflows are nonnegative counts. -/
theorem tauleapCpp_nonneg (pr : SIRParams) (rpois : ℕ → ℚ → ℚ)
    (init : SIRState) (hdraw : ∀ k lam, 0 ≤ rpois k lam)
    (hS : 0 ≤ init.S) (hI : 0 ≤ init.I) (hR : 0 ≤ init.R)
    (_hnu : 0 ≤ pr.nu) (_hmu : 0 ≤ pr.mu) (_hbeta : 0 ≤ pr.beta)
    (_hgamma : 0 ≤ pr.gamma) (_htau : 0 ≤ pr.tau) :
    ∀ k : ℕ, 0 ≤ (tauleapCpp pr rpois init k).S ∧
      0 ≤ (tauleapCpp pr rpois init k).I ∧
      0 ≤ (tauleapCpp pr rpois init k).R := by
  intro k
  induction k with
  | zero => exact ⟨hS, hI, hR⟩
  | succ k ih =>
    exact tauleapStep_nonneg pr rpois k (tauleapCpp pr rpois init k) hdraw
      ih.1 ih.2.1 ih.2.2

/-- Witness for C9: unit rates, initial state `(S, I, R, N) = (1, 1, 1, 4)`
and the all-zero draw sequence, after two steps. -/
theorem tauleapCpp_nonneg_witness :
    0 ≤ (tauleapCpp ⟨1, 1, 1, 1, 1⟩ (fun _ _ => 0) ⟨1, 1, 1, 4⟩ 2).S ∧
    0 ≤ (tauleapCpp ⟨1, 1, 1, 1, 1⟩ (fun _ _ => 0) ⟨1, 1, 1, 4⟩ 2).I ∧
    0 ≤ (tauleapCpp ⟨1, 1, 1, 1, 1⟩ (fun _ _ => 0) ⟨1, 1, 1, 4⟩ 2).R :=
  tauleapCpp_nonneg ⟨1, 1, 1, 1, 1⟩ (fun _ _ => 0) ⟨1, 1, 1, 4⟩
    (fun _ _ => le_refl 0) (by norm_num) (by norm_num) (by norm_num)
    (by norm_num) (by norm_num) (by norm_num) (by norm_num) (by norm_num) 2

/-- Taking one more element adds it to the prefix sum. -/
theorem takeSum_succ (x : List ℚ) (k : ℕ) (h : k < x.length) :
    (x.take (k + 1)).sum = (x.take k).sum + x.getD k 0 := by
  rw [List.take_succ, List.sum_append, List.getElem?_eq_getElem h,
    List.getD_eq_getElem x 0 h]
  simp

/-- The update loop of `run_sum` preserves the result vector's length. -/
theorem runSumLoop_length (x : List ℚ) (n i : ℕ) (res : List ℚ) :
    (runSumLoop x n i res).length = res.length := by
  rcases Nat.lt_or_ge i x.length with h | h
  · rw [runSumLoop, dif_pos h, runSumLoop_length x n (i + 1)]
    exact List.length_set res i _
  · rw [runSumLoop, dif_neg (not_lt.mpr h)]
termination_by x.length - i

/-- Invariant of the `run_sum` update loop: if every already-written window
entry (positions `n-1 ≤ idx < i`) holds the prefix-sum difference
`S(idx+1) - S(idx+1-n)`, then after the loop every window entry does. -/
theorem runSumLoop_getD (x : List ℚ) (n : ℕ) (hn : 1 ≤ n) (i : ℕ)
    (res : List ℚ) (hni : n ≤ i) (hlen : res.length = x.length)
    (hres : ∀ idx : ℕ, n - 1 ≤ idx → idx < i → idx < x.length →
      res.getD idx 0 = (x.take (idx + 1)).sum - (x.take (idx + 1 - n)).sum) :
    ∀ idx : ℕ, n - 1 ≤ idx → idx < x.length →
      (runSumLoop x n i res).getD idx 0 =
        (x.take (idx + 1)).sum - (x.take (idx + 1 - n)).sum := by
  intro idx hidx1 hidx2
  rcases Nat.lt_or_ge i x.length with h | h
  · rw [runSumLoop, dif_pos h]
    refine runSumLoop_getD x n hn (i + 1) _ (by omega)
      (by rw [List.length_set]; exact hlen) ?_ idx hidx1 hidx2
    intro idx' h1 h2 h3
    rcases Nat.lt_or_ge idx' i with hlt | hge
    · rw [List.getD_eq_getElem?_getD, List.getElem?_set_ne (by omega),
        ← List.getD_eq_getElem?_getD]
      exact hres idx' h1 hlt h3
    · have heq : idx' = i := by omega
      subst heq
      rw [List.getD_eq_getElem?_getD,
        List.getElem?_set_self (by omega), Option.getD_some]
      have hprev := hres (idx' - 1) (by omega) (by omega) (by omega)
      have e1 : idx' - 1 + 1 = idx' := by omega
      rw [e1] at hprev
      have e3 : idx' + 1 - n = (idx' - n) + 1 := by omega
      rw [takeSum_succ x idx' h3, e3,
        takeSum_succ x (idx' - n) (by omega), hprev]
      ring
  · rw [runSumLoop, dif_neg (not_lt.mpr h)]
    exact hres idx hidx1 (by omega) hidx2
termination_by x.length - i

/-- Reading the mapped enumeration of a list at an in-range position. -/
theorem enumMap_getD (l : List ℚ) (f : ℕ × ℚ → Option ℚ) (idx : ℕ)
    (h : idx < l.length) (d : Option ℚ) :
    (l.enum.map f).getD idx d = f (idx, l.getD idx 0) := by
  rw [List.getD_eq_getElem?_getD, List.getElem?_map, List.getElem?_enum,
    List.getElem?_eq_getElem h, List.getD_eq_getElem l 0 h]
  rfl

/-- C5: for `1 ≤ n ≤ sz`, `run_sum(x, n)` returns a vector of length `sz`
whose first `n-1` entries are the missing-value sentinel `NA` and whose
entry at each index `idx ≥ n-1` is the running-window sum
`x[idx-n+1] + ... + x[idx]`. -/
theorem run_sum_spec (x : List ℚ) (n : ℕ) (h1 : 1 ≤ n)
    (h2 : n ≤ x.length) :
    (run_sum x n).length = x.length ∧
    (∀ idx : ℕ, idx < n - 1 → (run_sum x n).getD idx (some 0) = none) ∧
    (∀ idx : ℕ, n - 1 ≤ idx → idx < x.length →
      (run_sum x n).getD idx none =
        some (((x.drop (idx + 1 - n)).take n).sum)) := by
  unfold run_sum
  have hlen1 : ((List.replicate x.length (0 : ℚ)).set (n - 1)
      ((x.take n).foldl (· + ·) 0)).length = x.length := by
    rw [List.length_set, List.length_replicate]
  have hlen2 : (runSumLoop x n n ((List.replicate x.length (0 : ℚ)).set (n - 1)
      ((x.take n).foldl (· + ·) 0))).length = x.length := by
    rw [runSumLoop_length, hlen1]
  have hloop := runSumLoop_getD x n h1 n
    ((List.replicate x.length (0 : ℚ)).set (n - 1)
      ((x.take n).foldl (· + ·) 0)) le_rfl hlen1 ?seed
  case seed =>
    intro idx hi1 hi2 hi3
    have heq : idx = n - 1 := by omega
    subst heq
    rw [List.getD_eq_getElem?_getD,
      List.getElem?_set_self (by rw [List.length_replicate]; omega),
      Option.getD_some, foldl_add_eq, zero_add]
    have e1 : n - 1 + 1 = n := by omega
    rw [e1]
    simp
  refine ⟨by simp [hlen2], ?_, ?_⟩
  · intro idx hidx
    rw [enumMap_getD _ _ idx (by omega) _]
    simp [hidx]
  · intro idx hidx1 hidx2
    rw [enumMap_getD _ _ idx (by omega) _]
    have hwin : (x.take (idx + 1)).sum - (x.take (idx + 1 - n)).sum =
        ((x.drop (idx + 1 - n)).take n).sum := by
      have e : idx + 1 = (idx + 1 - n) + n := by omega
      have := List.take_add x (idx + 1 - n) n
      rw [← e] at this
      rw [this, List.sum_append]
      ring
    rw [hloop idx hidx1 hidx2, hwin]
    have hnot : ¬ idx < n - 1 := by omega
    simp [hnot]

/-- Witness for C5 on `x = [1, 2, 3, 4]`, `n = 2`: the first entry is `NA`
and entry `2` holds `x[1] + x[2] = 5`. -/
theorem run_sum_spec_witness :
    (run_sum [1, 2, 3, 4] 2).length = 4 ∧
    (run_sum [1, 2, 3, 4] 2).getD 0 (some 0) = none ∧
    (run_sum [1, 2, 3, 4] 2).getD 2 none = some 5 := by
  have h := run_sum_spec [1, 2, 3, 4] 2 (by decide) (by decide)
  refine ⟨h.1, h.2.1 0 (by decide), ?_⟩
  rw [h.2.2 2 (by decide) (by decide)]
  norm_num

/-- C6: for every non-empty vector, `median_rcpp` returns the middle order
statistic (odd length) or the average of the two middle order statistics
(even length), and the input vector is left unchanged — the function
operates on a clone. -/
theorem median_rcpp_spec (x : List ℚ) (_hx : 0 < x.length) :
    (median_rcpp x).1 = medianRef x ∧ (median_rcpp x).2 = x := by
  have hne : nth_element x 0 (x.length / 2) x.length =
      x.insertionSort (· ≤ ·) := by
    unfold nth_element
    simp
  by_cases hpar : x.length % 2 = 1
  · simp [median_rcpp, medianRef, hpar, hne]
  · have hsorted := List.sorted_insertionSort (· ≤ ·) x
    have hstake : List.Sorted (· ≤ ·)
        ((x.insertionSort (· ≤ ·)).take (x.length / 2)) :=
      List.Pairwise.sublist (List.take_sublist _ _) hsorted
    have hs2 : nth_element (x.insertionSort (· ≤ ·)) 0
        (x.length / 2 - 1) (x.length / 2) = x.insertionSort (· ≤ ·) := by
      unfold nth_element
      simp [List.Sorted.insertionSort_eq hstake]
    simp only [median_rcpp, medianRef, if_neg hpar, hne, hs2]
    refine ⟨?_, by trivial⟩
    ring

/-- Witness for C6: the median of `[3, 1, 2]` is `2` and the argument is
returned unchanged. -/
theorem median_rcpp_spec_witness :
    (median_rcpp [3, 1, 2]).1 = 2 ∧ (median_rcpp [3, 1, 2]).2 = [3, 1, 2] := by
  have h := median_rcpp_spec [3, 1, 2] (by decide)
  refine ⟨?_, h.2⟩
  rw [h.1]
  norm_num [medianRef, List.insertionSort, List.orderedInsert]

/-- Witness for C3 on a concrete matrix: `crossprod` (the last accessor in
the conjunction) leaves the object state unchanged. -/
theorem dgCMatrix_accessors_no_mutation_witness :
    (dgCMatrix.crossprodS ⟨[0, 2], [0, 1, 2], [5, 7], [3, 2], []⟩).2 =
      (⟨[0, 2], [0, 1, 2], [5, 7], [3, 2], []⟩ : dgCMatrix) :=
  (dgCMatrix_accessors_no_mutation ⟨[0, 2], [0, 1, 2], [5, 7], [3, 2], []⟩
    0 0 [] []).2.2.2.2.2.2.2.2.2.2.2.2.2.2.2.2.2.2.2

/-- Witness for C10 at `sz = 5`: `n = 2` is in bounds for all three run
functions, while `n = 0` is not. -/
theorem run_bounds_iff_witness :
    (runSumInBounds 5 2 ∧ runMinInBounds 5 2 ∧ runMaxInBounds 5 2) ∧
    ¬ (runSumInBounds 5 0 ∧ runMinInBounds 5 0 ∧ runMaxInBounds 5 0) := by
  constructor
  · exact (run_bounds_iff 5 2).mp (by norm_num)
  · intro h
    have := (run_bounds_iff 5 0).mpr h
    omega
